import Mathlib

/-!
# ThreadPool: a shallow embedding of `src/threadPool.h`

The pool is modelled as a state machine.  The state is the content of the
class `ThreadPool` (`workers`, `tasks`, `stop`), the shared states of the
`std::packaged_task` objects that `enqueue` allocates, the position of the
destructor, and three history lists that only record what happened.

Every critical section of the source runs under `queue_mutex`, so each one is
a single atomic step.  `cv.wait(lock, pred)` may wake up spuriously, so a
waiting worker may re-evaluate its predicate at any moment: it is blocked
exactly while the predicate is false; for the same reason `cv.notify_one` and
`cv.notify_all` change nothing in the state.  An interleaving of the threads is a
list of events, and the reachable states are the states `run p0 evs` for the
pool `p0` returned by the constructor.

`size_t` counters are natural numbers: the loop counter of the constructor
never exceeds `thread_nums`, so no arithmetic wraps.  The template parameter
`return_type` is instantiated at `int`, as in `src/main.cpp`.
-/

set_option linter.dupNamespace false
set_option maxRecDepth 100000

namespace ThreadPool

/-! ## Data model -/

/-- Error codes of `std::future_error` that the program can meet. -/
inductive FutureErrc where
  | promise_already_satisfied
  deriving DecidableEq, Repr

/-- C++ exceptions: `std::runtime_error`, `std::invalid_argument`,
`std::future_error`. -/
inductive Error where
  | runtime_error (what : String)
  | invalid_argument (what : String)
  | future_error (code : FutureErrc)
  deriving DecidableEq, Repr

/-- What a call of a callable produces: a value, or a thrown exception. -/
abbrev Outcome := Except Error Int

/-- The bound callable `std::bind(f, args...)`: a function of no argument. -/
abbrev Callable := Unit → Outcome

/-- The `std::packaged_task` allocated by `make_shared` in `enqueue`, as the
queue sees it through `callback`: `id` names the allocation (and with it the
shared state that the future reads), `fn` is the bound callable. -/
structure Task where
  id : Nat
  fn : Callable

/-- The control state of one worker thread (the lambda of lines 40-59):
`idle` is at the top of the loop or inside `cv.wait`, `running t` has left the
critical section with `t` in its local `task` and has not yet returned from
`task()`, `exited` has executed `return`.  `faulted` stands for the two ways
the thread function could go wrong: `front()` on an empty queue, or an
exception that escapes `task()`. -/
inductive Worker where
  | idle
  | running (task : Task)
  | exited
  | faulted

/-- Position of the thread that executes `~ThreadPool`: not called yet, in the
`join` loop about to join worker `k`, or returned. -/
inductive Destructor where
  | notStarted
  | joining (k : Nat)
  | done
  deriving DecidableEq, Repr

/-- The `std::future<return_type>` handed to the caller: the shared state it
refers to, and whether it still refers to it (`valid()`). -/
structure Future where
  state : Nat
  valid : Bool
  deriving DecidableEq, Repr

/-- State of the pool.  `workers`, `tasks`, `stop` are the members of the
class; `shared` holds the shared state of every packaged task (`none`: not
ready) and `nextId` is the next allocation; `dtor` is the destructor's
position.  `accepted`, `dequeued` and `executed` are history: the tasks pushed
by `enqueue`, the tasks popped by workers, and the calls `task()` that
returned, each with the index of the worker that made it. -/
structure Pool where
  workers : List Worker
  tasks : List Task
  stop : Bool
  shared : Nat → Option Outcome
  nextId : Nat
  dtor : Destructor
  accepted : List Task
  dequeued : List Task
  executed : List (Nat × Task)

/-! ## Operations -/

/-- The constructor `ThreadPool::ThreadPool(size_t thread_nums)`, lines 37-61:
`stop(false)`, then one `workers.emplace_back` per iteration of the loop.  The
source has no check on `thread_nums` and no `throw`. -/
def ThreadPool (thread_nums : Nat) : Except Error Pool :=
  Except.ok
    { workers := (List.range thread_nums).foldl (fun ws _ => ws ++ [Worker.idle]) []
      tasks := []
      stop := false
      shared := fun _ => none
      nextId := 0
      dtor := Destructor.notStarted
      accepted := []
      dequeued := []
      executed := [] }

/-- `ThreadPool::enqueue`, lines 64-96.  The packaged task and its future are
created first; under the lock, a stopped pool throws (the new task and future
are destroyed by the unwinding, the pool is untouched), otherwise the callback
is appended to the queue and the future is returned. -/
def enqueue (p : Pool) (f : Callable) : Except Error (Future × Pool) :=
  let task : Task := { id := p.nextId, fn := f }
  let res : Future := { state := task.id, valid := true }
  if p.stop then
    Except.error (Error.runtime_error "enqueue on stopped ThreadPool")
  else
    Except.ok (res,
      { p with
        tasks := p.tasks ++ [task]
        shared := Function.update p.shared task.id none
        nextId := p.nextId + 1
        accepted := p.accepted ++ [task] })

/-- Result of one pass of a worker through its critical section. -/
inductive Critical where
  | blocked
  | exit
  | took (task : Task) (rest : List Task)
  | frontOnEmpty

/-- The critical section of the worker, lines 46-55, once the lock is held:
the wait predicate `stop || !tasks.empty()`, the exit test
`stop && tasks.empty()`, then `tasks.front()` and `tasks.pop()`.  `front()` on
an empty queue is undefined behaviour and is reported as `frontOnEmpty`. -/
def critical (stop : Bool) (tasks : List Task) : Critical :=
  if !(stop || !tasks.isEmpty) then Critical.blocked
  else if stop && tasks.isEmpty then Critical.exit
  else
    match tasks with
    | [] => Critical.frontOnEmpty
    | t :: rest => Critical.took t rest

/-- The call `(*task)()` of a packaged task: a task whose shared state is
already set throws `promise_already_satisfied`; otherwise the callable is run
and its value or its exception is stored in the shared state. -/
def invoke (shared : Nat → Option Outcome) (t : Task) :
    Except Error (Nat → Option Outcome) :=
  match shared t.id with
  | some _ => Except.error (Error.future_error FutureErrc.promise_already_satisfied)
  | none => Except.ok (Function.update shared t.id (some (t.fn ())))

/-- One step of worker `i`: an idle worker passes through the critical
section, a running worker completes `task()` and goes back to the top of its
loop.  An exception escaping `task()` would end the thread function. -/
def workerStep (p : Pool) (i : Nat) : Pool :=
  match p.workers[i]? with
  | none => p
  | some Worker.idle =>
    match critical p.stop p.tasks with
    | Critical.blocked => p
    | Critical.exit => { p with workers := p.workers.set i Worker.exited }
    | Critical.took t rest =>
      { p with
        workers := p.workers.set i (Worker.running t)
        tasks := rest
        dequeued := p.dequeued ++ [t] }
    | Critical.frontOnEmpty => { p with workers := p.workers.set i Worker.faulted }
  | some (Worker.running t) =>
    match invoke p.shared t with
    | Except.ok sh =>
      { p with
        workers := p.workers.set i Worker.idle
        shared := sh
        executed := p.executed ++ [(i, t)] }
    | Except.error _ => { p with workers := p.workers.set i Worker.faulted }
  | some Worker.exited => p
  | some Worker.faulted => p

/-- One step of `ThreadPool::~ThreadPool`, lines 98-111: first `stop = true`
under the lock, then `join` on each worker in turn (`join` blocks until that
worker has exited), then return. -/
def destructorStep (p : Pool) : Pool :=
  match p.dtor with
  | Destructor.notStarted => { p with stop := true, dtor := Destructor.joining 0 }
  | Destructor.joining k =>
    match p.workers[k]? with
    | none => { p with dtor := Destructor.done }
    | some Worker.exited => { p with dtor := Destructor.joining (k + 1) }
    | some _ => p
  | Destructor.done => p

/-- The steps the threads can take. -/
inductive Event where
  | enqueue (f : Callable)
  | worker (i : Nat)
  | destructor

/-- Effect of one event on the pool.  A throwing `enqueue` leaves the pool as
it was. -/
def step (p : Pool) (e : Event) : Pool :=
  match e with
  | Event.enqueue f =>
    match enqueue p f with
    | Except.ok (_, q) => q
    | Except.error _ => p
  | Event.worker i => workerStep p i
  | Event.destructor => destructorStep p

/-- The pool after an interleaving of events. -/
def run (p : Pool) (evs : List Event) : Pool :=
  evs.foldl step p

/-- The futures returned by the successful calls of `enqueue` along an
interleaving, in order, each with the callable that was submitted. -/
def handles : Pool → List Event → List (Future × Callable)
  | _, [] => []
  | p, Event.enqueue f :: evs =>
    match enqueue p f with
    | Except.ok (h, q) => (h, f) :: handles q evs
    | Except.error _ => handles p evs
  | p, e :: evs => handles (step p e) evs

/-- What a call of `std::future::get` does: it `blocked` because the shared
state is not ready, it `ready o h` returned the value or rethrew the exception
`o` and left the handle as `h`, or it was `undefined` because the call was made
outside the contract of `get`. -/
inductive GetResult where
  | blocked
  | ready (o : Outcome) (after : Future)
  | undefined

/-- `std::future::get` on handle `h`.  On a handle whose `valid()` is true it
blocks while the shared state is not ready; when ready it returns the stored
value or rethrows the stored exception, and releases the shared state, so
`valid()` is false afterwards.  On a handle whose `valid()` is false the
behaviour of `get` is undefined in the C++ standard; no result is attributed
to that call, it is reported as `undefined`. -/
def Future.get (shared : Nat → Option Outcome) (h : Future) : GetResult :=
  if !h.valid then GetResult.undefined
  else
    match shared h.state with
    | none => GetResult.blocked
    | some o => GetResult.ready o { h with valid := false }

/-- Whether a worker has left its loop. -/
def Worker.isExited : Worker → Bool
  | Worker.exited => true
  | _ => false

/-- The tasks held by the workers that are running one. -/
def running (ws : List Worker) : List Task :=
  ws.filterMap fun w =>
    match w with
    | Worker.running t => some t
    | _ => none

/-- The task named by a handle and the callable submitted with it. -/
def taskOf (hf : Future × Callable) : Task :=
  { id := hf.1.state, fn := hf.2 }

/-- The invariant of the reachable states. -/
structure Inv (p : Pool) : Prop where
  fifo : p.dequeued ++ p.tasks = p.accepted
  ids : p.accepted.map Task.id = List.range p.nextId
  perm : (p.executed.map Prod.snd ++ running p.workers).Perm p.dequeued
  exitedEmpty : Worker.exited ∈ p.workers → p.stop = true ∧ p.tasks = []
  noFault : Worker.faulted ∉ p.workers
  ready : ∀ id o, p.shared id = some o → ∃ e ∈ p.executed, e.2.id = id
  stored : ∀ e ∈ p.executed, p.shared e.2.id = some (e.2.fn ())
  owner : ∀ e ∈ p.executed, e.1 < p.workers.length
  started : p.stop = true ↔ p.dtor ≠ Destructor.notStarted
  joined : ∀ k, p.dtor = Destructor.joining k → ∀ i, i < k → p.workers[i]? = some Worker.exited
  finished : p.dtor = Destructor.done → ∀ w ∈ p.workers, w = Worker.exited

/-- Number of steps of an interleaving at which `stop` changes its value. -/
def flips : Pool → List Event → Nat
  | _, [] => 0
  | p, e :: evs => (if (step p e).stop = p.stop then 0 else 1) + flips (step p e) evs

/-! ## Concrete inputs -/

/-- The task of `src/main.cpp`: it returns `i * i`. -/
def square (i : Int) : Callable := fun _ => Except.ok (i * i)

/-- A task that throws. -/
def failing : Callable := fun _ => Except.error (Error.runtime_error "task failed")

/-- The pool as the constructor leaves it, given its list of workers. -/
def newPool (ws : List Worker) : Pool :=
  { workers := ws
    tasks := []
    stop := false
    shared := fun _ => none
    nextId := 0
    dtor := Destructor.notStarted
    accepted := []
    dequeued := []
    executed := [] }

/-- Two workers and three tasks, the second one throwing; the third task is
submitted while the first two are running and dequeued after the destructor
has set `stop`. -/
def drainTrace : List Event :=
  [Event.enqueue (square 2), Event.enqueue failing, Event.worker 0, Event.worker 1,
   Event.enqueue (square 5), Event.worker 1, Event.worker 0, Event.destructor,
   Event.worker 1, Event.worker 0, Event.destructor, Event.worker 1, Event.worker 1,
   Event.destructor, Event.destructor]

/-- The scenario of the specification: three workers, ten tasks computing
`i * i`, then the destructor. -/
def squaresTrace : List Event :=
  (List.range 10).map (fun i => Event.enqueue (square i)) ++
  [Event.worker 0, Event.worker 1, Event.worker 2, Event.worker 2, Event.worker 0,
   Event.worker 2, Event.worker 1, Event.worker 0, Event.worker 1, Event.worker 1,
   Event.worker 0, Event.worker 2, Event.worker 2, Event.worker 1, Event.worker 0,
   Event.worker 0, Event.worker 2, Event.destructor, Event.worker 1, Event.worker 0,
   Event.worker 1, Event.worker 2, Event.worker 0, Event.worker 0, Event.destructor,
   Event.destructor, Event.destructor, Event.destructor]

/-- One worker that has dequeued a throwing task while a second task waits. -/
def failureTrace : List Event :=
  [Event.enqueue failing, Event.enqueue (square 3), Event.worker 0]

/-- One worker, one task, run to completion. -/
def singleTrace : List Event :=
  [Event.enqueue (square 3), Event.worker 0, Event.worker 0]

/-! ## Lemmas on the workers list -/

theorem running_append (l₁ l₂ : List Worker) :
    running (l₁ ++ l₂) = running l₁ ++ running l₂ := by
  simp [running, List.filterMap_append]

theorem running_cons (w : Worker) (l : List Worker) :
    running (w :: l) = running [w] ++ running l :=
  running_append [w] l

/-- Replacing worker `i` exchanges its contribution to `running`. -/
theorem running_set (ws : List Worker) (i : Nat) (w w' : Worker)
    (h : ws[i]? = some w) :
    (running [w'] ++ running ws).Perm (running [w] ++ running (ws.set i w')) := by
  induction ws generalizing i with
  | nil => simp at h
  | cons a tl ih =>
    cases i with
    | zero =>
      simp only [List.getElem?_cons_zero, Option.some.injEq] at h
      subst h
      rw [List.set_cons_zero, running_cons a tl, running_cons w' tl]
      rw [← List.append_assoc, ← List.append_assoc]
      exact List.Perm.append_right _ List.perm_append_comm
    | succ j =>
      simp only [List.getElem?_cons_succ] at h
      rw [List.set_cons_succ, running_cons a tl, running_cons a (tl.set j w')]
      have h1 : (running [w'] ++ (running [a] ++ running tl)).Perm
          (running [a] ++ (running [w'] ++ running tl)) := by
        rw [← List.append_assoc, ← List.append_assoc]
        exact List.Perm.append_right _ List.perm_append_comm
      have h2 : (running [a] ++ (running [w] ++ running (tl.set j w'))).Perm
          (running [w] ++ (running [a] ++ running (tl.set j w'))) := by
        rw [← List.append_assoc, ← List.append_assoc]
        exact List.Perm.append_right _ List.perm_append_comm
      exact h1.trans ((List.Perm.append_left _ (ih j h)).trans h2)

theorem running_idle : running [Worker.idle] = [] := rfl

theorem running_exited : running [Worker.exited] = [] := rfl

theorem running_running (t : Task) : running [Worker.running t] = [t] := rfl

/-! ## The critical section -/

theorem critical_cases (stop : Bool) (tasks : List Task) :
    (critical stop tasks = Critical.blocked ∧ stop = false ∧ tasks = []) ∨
    (critical stop tasks = Critical.exit ∧ stop = true ∧ tasks = []) ∨
    (∃ t rest, critical stop tasks = Critical.took t rest ∧ tasks = t :: rest) := by
  cases stop <;> cases tasks <;> simp [critical]

/-! ## Consequences of the invariant -/

theorem Inv.nodupDequeued {p : Pool} (hp : Inv p) : (p.dequeued.map Task.id).Nodup := by
  have h : ((p.dequeued ++ p.tasks).map Task.id).Nodup := by
    rw [hp.fifo, hp.ids]; exact List.nodup_range _
  rw [List.map_append] at h
  exact (List.nodup_append.mp h).1

theorem Inv.nodupAccepted {p : Pool} (hp : Inv p) : (p.accepted.map Task.id).Nodup := by
  rw [hp.ids]; exact List.nodup_range _

theorem Inv.nodupActive {p : Pool} (hp : Inv p) :
    ((p.executed.map Prod.snd ++ running p.workers).map Task.id).Nodup :=
  ((hp.perm.map Task.id).nodup_iff).mpr hp.nodupDequeued

theorem Inv.executedAccepted {p : Pool} (hp : Inv p) (e : Nat × Task)
    (he : e ∈ p.executed) : e.2 ∈ p.accepted := by
  have h1 : e.2 ∈ p.executed.map Prod.snd ++ running p.workers :=
    List.mem_append_left _ (List.mem_map_of_mem _ he)
  have h2 : e.2 ∈ p.dequeued := hp.perm.mem_iff.mp h1
  rw [← hp.fifo]
  exact List.mem_append_left _ h2

theorem Inv.idLt {p : Pool} (hp : Inv p) (t : Task) (ht : t ∈ p.accepted) :
    t.id < p.nextId := by
  have h : t.id ∈ p.accepted.map Task.id := List.mem_map_of_mem _ ht
  rw [hp.ids] at h
  exact List.mem_range.mp h

theorem mem_running {ws : List Worker} {i : Nat} {t : Task}
    (h : ws[i]? = some (Worker.running t)) : t ∈ running ws := by
  unfold running
  rw [List.mem_filterMap]
  exact ⟨Worker.running t, List.getElem?_mem h, rfl⟩

/-- A task that a worker is running has not been executed before. -/
theorem Inv.notExecuted {p : Pool} (hp : Inv p) {i : Nat} {t : Task}
    (h : p.workers[i]? = some (Worker.running t)) (e : Nat × Task)
    (he : e ∈ p.executed) : e.2.id ≠ t.id := by
  intro hid
  have hn := hp.nodupActive
  rw [List.map_append] at hn
  have hd := (List.nodup_append.mp hn).2.2
  exact hd (List.mem_map_of_mem Task.id (List.mem_map_of_mem Prod.snd he))
    (hid ▸ List.mem_map_of_mem Task.id (mem_running h))

/-- The shared state of a task that a worker is running is not ready. -/
theorem Inv.fresh {p : Pool} (hp : Inv p) {i : Nat} {t : Task}
    (h : p.workers[i]? = some (Worker.running t)) : p.shared t.id = none := by
  cases hs : p.shared t.id with
  | none => rfl
  | some o =>
    obtain ⟨e, he, hid⟩ := hp.ready t.id o hs
    exact absurd hid (hp.notExecuted h e he)

/-! ## Each step preserves the invariant -/

theorem enqueue_stopped (p : Pool) (f : Callable) (hs : p.stop = true) :
    enqueue p f = Except.error (Error.runtime_error "enqueue on stopped ThreadPool") := by
  simp [enqueue, hs]

theorem enqueue_accepting (p : Pool) (f : Callable) (hs : p.stop = false) :
    enqueue p f = Except.ok (({ state := p.nextId, valid := true } : Future),
      { p with
        tasks := p.tasks ++ [{ id := p.nextId, fn := f }]
        shared := Function.update p.shared p.nextId none
        nextId := p.nextId + 1
        accepted := p.accepted ++ [{ id := p.nextId, fn := f }] }) := by
  simp [enqueue, hs]

theorem inv_enqueue {p q : Pool} {f : Callable} {h : Future} (hp : Inv p)
    (he : enqueue p f = Except.ok (h, q)) : Inv q := by
  cases hs : p.stop with
  | true => rw [enqueue_stopped p f hs] at he; cases he
  | false =>
    rw [enqueue_accepting p f hs] at he
    injection he with he
    injection he with _ hq
    subst hq
    exact
      { fifo := by
          show p.dequeued ++ (p.tasks ++ [_]) = p.accepted ++ [_]
          rw [← List.append_assoc, hp.fifo]
        ids := by
          show (p.accepted ++ [_]).map Task.id = List.range (p.nextId + 1)
          rw [List.map_append, hp.ids, List.range_succ]
          rfl
        perm := hp.perm
        exitedEmpty := by
          intro hm
          have h1 := (hp.exitedEmpty hm).1
          rw [hs] at h1
          cases h1
        noFault := hp.noFault
        ready := by
          intro id o hso
          have hso : Function.update p.shared p.nextId none id = some o := hso
          by_cases hid : id = p.nextId
          · subst hid
            rw [Function.update_same] at hso
            cases hso
          · rw [Function.update_noteq hid] at hso
            exact hp.ready id o hso
        stored := by
          intro e he
          show Function.update p.shared p.nextId none e.2.id = some (e.2.fn ())
          have hlt := hp.idLt e.2 (hp.executedAccepted e he)
          rw [Function.update_noteq (Nat.ne_of_lt hlt)]
          exact hp.stored e he
        owner := hp.owner
        started := hp.started
        joined := hp.joined
        finished := hp.finished }

theorem mem_set_cases {ws : List Worker} {i : Nat} {w v : Worker}
    (h : w ∈ ws.set i v) : w ∈ ws ∨ w = v :=
  List.mem_or_eq_of_mem_set h

theorem getElem?_set_exited {ws : List Worker} {i j : Nat} {v : Worker}
    (hne : ws[i]? ≠ some Worker.exited)
    (h : ws[j]? = some Worker.exited) : (ws.set i v)[j]? = some Worker.exited := by
  by_cases hij : i = j
  · subst hij; exact absurd h hne
  · rw [List.getElem?_set_ne hij]; exact h

theorem inv_exit {p : Pool} {i : Nat} (hp : Inv p)
    (hw : p.workers[i]? = some Worker.idle) (hs : p.stop = true) (ht : p.tasks = []) :
    Inv { p with workers := p.workers.set i Worker.exited } :=
  { fifo := hp.fifo
    ids := hp.ids
    perm := by
      have h := running_set p.workers i Worker.idle Worker.exited hw
      rw [running_exited, running_idle, List.nil_append, List.nil_append] at h
      exact (List.Perm.append_left _ h.symm).trans hp.perm
    exitedEmpty := fun _ => ⟨hs, ht⟩
    noFault := by
      intro hm
      rcases mem_set_cases hm with h | h
      · exact hp.noFault h
      · cases h
    ready := hp.ready
    stored := hp.stored
    owner := by
      intro e he
      show e.1 < (p.workers.set i Worker.exited).length
      rw [List.length_set]
      exact hp.owner e he
    started := hp.started
    joined := by
      intro k hk j hj
      show (p.workers.set i Worker.exited)[j]? = some Worker.exited
      by_cases hij : i = j
      · subst hij
        rw [List.getElem?_set_self (List.getElem?_eq_some.mp hw).1]
      · rw [List.getElem?_set_ne hij]
        exact hp.joined k hk j hj
    finished := by
      intro hd w hm
      rcases mem_set_cases hm with h | h
      · exact hp.finished hd w h
      · exact h }

theorem inv_take {p : Pool} {i : Nat} {t : Task} {rest : List Task} (hp : Inv p)
    (hw : p.workers[i]? = some Worker.idle) (ht : p.tasks = t :: rest) :
    Inv { p with
          workers := p.workers.set i (Worker.running t)
          tasks := rest
          dequeued := p.dequeued ++ [t] } :=
  have hne : p.workers[i]? ≠ some Worker.exited := by rw [hw]; intro h; cases h
  { fifo := by
      show (p.dequeued ++ [t]) ++ rest = p.accepted
      rw [List.append_assoc, ← hp.fifo, ht]
      rfl
    ids := hp.ids
    perm := by
      show (p.executed.map Prod.snd ++ running (p.workers.set i (Worker.running t))).Perm
        (p.dequeued ++ [t])
      have h := running_set p.workers i Worker.idle (Worker.running t) hw
      rw [running_running, running_idle, List.nil_append] at h
      have h1 : (p.executed.map Prod.snd ++ running (p.workers.set i (Worker.running t))).Perm
          (p.executed.map Prod.snd ++ ([t] ++ running p.workers)) :=
        List.Perm.append_left _ h.symm
      have h2 : (p.executed.map Prod.snd ++ ([t] ++ running p.workers)).Perm
          ((p.executed.map Prod.snd ++ running p.workers) ++ [t]) := by
        rw [List.append_assoc]
        exact List.Perm.append_left _ List.perm_append_comm
      exact h1.trans (h2.trans (List.Perm.append_right _ hp.perm))
    exitedEmpty := by
      intro hm
      rcases mem_set_cases hm with h | h
      · have h1 := (hp.exitedEmpty h).2
        rw [ht] at h1
        cases h1
      · cases h
    noFault := by
      intro hm
      rcases mem_set_cases hm with h | h
      · exact hp.noFault h
      · cases h
    ready := hp.ready
    stored := hp.stored
    owner := by
      intro e he
      show e.1 < (p.workers.set i (Worker.running t)).length
      rw [List.length_set]
      exact hp.owner e he
    started := hp.started
    joined := fun k hk j hj => getElem?_set_exited hne (hp.joined k hk j hj)
    finished := by
      intro hd w _
      have h1 := hp.finished hd Worker.idle (List.getElem?_mem hw)
      cases h1 }

theorem inv_finish {p : Pool} {i : Nat} {t : Task} (hp : Inv p)
    (hw : p.workers[i]? = some (Worker.running t)) :
    Inv { p with
          workers := p.workers.set i Worker.idle
          shared := Function.update p.shared t.id (some (t.fn ()))
          executed := p.executed ++ [(i, t)] } :=
  have hne : p.workers[i]? ≠ some Worker.exited := by rw [hw]; intro h; cases h
  { fifo := hp.fifo
    ids := hp.ids
    perm := by
      show ((p.executed ++ [(i, t)]).map Prod.snd ++ running (p.workers.set i Worker.idle)).Perm
        p.dequeued
      have h := running_set p.workers i (Worker.running t) Worker.idle hw
      rw [running_running, running_idle, List.nil_append] at h
      rw [List.map_append, List.append_assoc]
      exact (List.Perm.append_left _ h.symm).trans hp.perm
    exitedEmpty := by
      intro hm
      rcases mem_set_cases hm with h | h
      · exact hp.exitedEmpty h
      · cases h
    noFault := by
      intro hm
      rcases mem_set_cases hm with h | h
      · exact hp.noFault h
      · cases h
    ready := by
      intro id o hso
      have hso : Function.update p.shared t.id (some (t.fn ())) id = some o := hso
      show ∃ e ∈ p.executed ++ [(i, t)], e.2.id = id
      by_cases hid : id = t.id
      · exact ⟨(i, t), List.mem_append_right _ (List.mem_singleton_self _), hid.symm⟩
      · rw [Function.update_noteq hid] at hso
        obtain ⟨e, he, h⟩ := hp.ready id o hso
        exact ⟨e, List.mem_append_left _ he, h⟩
    stored := by
      intro e he
      show Function.update p.shared t.id (some (t.fn ())) e.2.id = some (e.2.fn ())
      rcases List.mem_append.mp he with h | h
      · rw [Function.update_noteq (hp.notExecuted hw e h)]
        exact hp.stored e h
      · rw [List.mem_singleton] at h
        subst h
        exact Function.update_same _ _ _
    owner := by
      intro e he
      show e.1 < (p.workers.set i Worker.idle).length
      rw [List.length_set]
      rcases List.mem_append.mp he with h | h
      · exact hp.owner e h
      · rw [List.mem_singleton] at h
        subst h
        exact (List.getElem?_eq_some.mp hw).1
    started := hp.started
    joined := fun k hk j hj => getElem?_set_exited hne (hp.joined k hk j hj)
    finished := by
      intro hd w _
      have h1 := hp.finished hd (Worker.running t) (List.getElem?_mem hw)
      cases h1 }

theorem invoke_fresh (shared : Nat → Option Outcome) (t : Task) (h : shared t.id = none) :
    invoke shared t = Except.ok (Function.update shared t.id (some (t.fn ()))) := by
  simp [invoke, h]

theorem inv_workerStep (p : Pool) (i : Nat) (hp : Inv p) : Inv (workerStep p i) := by
  unfold workerStep
  split
  · exact hp
  · next hw =>
    rcases critical_cases p.stop p.tasks with ⟨hc, -, -⟩ | ⟨hc, hs, ht⟩ | ⟨t, rest, hc, ht⟩
    · rw [hc]; exact hp
    · rw [hc]; exact inv_exit hp hw hs ht
    · rw [hc]; exact inv_take hp hw ht
  · next t hw =>
    rw [invoke_fresh p.shared t (hp.fresh hw)]
    exact inv_finish hp hw
  · exact hp
  · exact hp

theorem inv_destructorStep (p : Pool) (hp : Inv p) : Inv (destructorStep p) := by
  unfold destructorStep
  split
  · next hd =>
    exact
      { fifo := hp.fifo
        ids := hp.ids
        perm := hp.perm
        exitedEmpty := fun hm => ⟨rfl, (hp.exitedEmpty hm).2⟩
        noFault := hp.noFault
        ready := hp.ready
        stored := hp.stored
        owner := hp.owner
        started := ⟨fun _ h => (by cases h), fun _ => rfl⟩
        joined := fun k _ j hj => by
          have hk : Destructor.joining 0 = Destructor.joining k := by assumption
          injection hk with hk
          omega
        finished := fun h => by cases h }
  · next k hd =>
    split
    · next hn =>
      exact
        { fifo := hp.fifo
          ids := hp.ids
          perm := hp.perm
          exitedEmpty := hp.exitedEmpty
          noFault := hp.noFault
          ready := hp.ready
          stored := hp.stored
          owner := hp.owner
          started := ⟨fun _ h => (by cases h), fun _ => hp.started.mpr (by rw [hd]; intro h; cases h)⟩
          joined := fun k h => by cases h
          finished := fun _ w hw => by
            have hw : w ∈ p.workers := hw
            obtain ⟨j, hj⟩ := List.mem_iff_getElem?.mp hw
            have hlt : j < k := by
              by_contra hge
              have hlen : p.workers.length ≤ k := by
                by_contra hlt
                rw [List.getElem?_eq_getElem (by omega)] at hn
                cases hn
              rw [List.getElem?_eq_none (by omega)] at hj
              cases hj
            have := hp.joined k hd j hlt
            rw [hj] at this
            injection this }
    · next he =>
      exact
        { fifo := hp.fifo
          ids := hp.ids
          perm := hp.perm
          exitedEmpty := hp.exitedEmpty
          noFault := hp.noFault
          ready := hp.ready
          stored := hp.stored
          owner := hp.owner
          started := ⟨fun _ h => (by cases h), fun _ => hp.started.mpr (by rw [hd]; intro h; cases h)⟩
          joined := fun k1 hk j hj => by
            have hk : Destructor.joining (k + 1) = Destructor.joining k1 := hk
            injection hk with hk
            by_cases hjk : j = k
            · rw [hjk]; exact he
            · exact hp.joined k hd j (by omega)
          finished := fun h => by cases h }
    · exact hp
  · exact hp

theorem inv_step (p : Pool) (e : Event) (hp : Inv p) : Inv (step p e) := by
  cases e with
  | enqueue f =>
    show Inv (match enqueue p f with
      | Except.ok (_, q) => q
      | Except.error _ => p)
    cases he : enqueue p f with
    | error _ => exact hp
    | ok r => exact inv_enqueue (h := r.1) (q := r.2) hp he
  | worker i => exact inv_workerStep p i hp
  | destructor => exact inv_destructorStep p hp

theorem inv_run (evs : List Event) (p : Pool) (hp : Inv p) : Inv (run p evs) := by
  induction evs generalizing p with
  | nil => exact hp
  | cons e es ih => exact ih (step p e) (inv_step p e hp)

/-! ## The constructor -/

theorem foldl_spawn (l : List Nat) (init : List Worker) :
    l.foldl (fun ws _ => ws ++ [Worker.idle]) init =
      init ++ List.replicate l.length Worker.idle := by
  induction l generalizing init with
  | nil => simp
  | cons a tl ih =>
    rw [List.foldl_cons, ih, List.length_cons, List.replicate_succ, List.append_assoc]
    rfl

theorem constructor_workers {n : Nat} {p0 : Pool} (hc : ThreadPool n = Except.ok p0) :
    p0.workers = List.replicate n Worker.idle := by
  unfold ThreadPool at hc
  injection hc with hc
  subst hc
  show (List.range n).foldl (fun ws _ => ws ++ [Worker.idle]) [] = _
  rw [foldl_spawn, List.length_range, List.nil_append]

theorem running_replicate_idle (n : Nat) : running (List.replicate n Worker.idle) = [] := by
  induction n with
  | zero => rfl
  | succ k ih => rw [List.replicate_succ, running_cons, ih, running_idle]; rfl

theorem inv_constructor {n : Nat} {p0 : Pool} (hc : ThreadPool n = Except.ok p0) : Inv p0 := by
  have hw := constructor_workers hc
  unfold ThreadPool at hc
  injection hc with hc
  subst hc
  exact
    { fifo := rfl
      ids := rfl
      perm := by
        rw [hw, running_replicate_idle]
        exact List.Perm.refl _
      exitedEmpty := by
        intro hm
        rw [hw] at hm
        have := List.eq_of_mem_replicate hm
        cases this
      noFault := by
        intro hm
        rw [hw] at hm
        have := List.eq_of_mem_replicate hm
        cases this
      ready := fun _ _ h => by cases h
      stored := fun _ h => by cases h
      owner := fun _ h => by cases h
      started := ⟨fun h => (by cases h), fun h => absurd rfl h⟩
      joined := fun _ h => by cases h
      finished := fun h => by cases h }

/-! ## Frame properties of the steps -/

theorem workerStep_cases (p : Pool) (i : Nat) :
    workerStep p i = p ∨
    (p.workers[i]? = some Worker.idle ∧ p.stop = true ∧ p.tasks = [] ∧
      workerStep p i = { p with workers := p.workers.set i Worker.exited }) ∨
    (∃ t rest, p.workers[i]? = some Worker.idle ∧ p.tasks = t :: rest ∧
      workerStep p i =
        { p with
          workers := p.workers.set i (Worker.running t)
          tasks := rest
          dequeued := p.dequeued ++ [t] }) ∨
    (∃ t, p.workers[i]? = some (Worker.running t) ∧ p.shared t.id = none ∧
      workerStep p i =
        { p with
          workers := p.workers.set i Worker.idle
          shared := Function.update p.shared t.id (some (t.fn ()))
          executed := p.executed ++ [(i, t)] }) ∨
    (∃ t, p.workers[i]? = some (Worker.running t) ∧ p.shared t.id ≠ none ∧
      workerStep p i = { p with workers := p.workers.set i Worker.faulted }) := by
  unfold workerStep
  split
  · exact Or.inl rfl
  · next hw =>
    rcases critical_cases p.stop p.tasks with ⟨hc, -, -⟩ | ⟨hc, hs, ht⟩ | ⟨t, rest, hc, ht⟩
    · rw [hc]; exact Or.inl rfl
    · rw [hc]; exact Or.inr (Or.inl ⟨hw, hs, ht, rfl⟩)
    · rw [hc]; exact Or.inr (Or.inr (Or.inl ⟨t, rest, hw, ht, rfl⟩))
  · next t hw =>
    cases hs : p.shared t.id with
    | none =>
      rw [invoke_fresh p.shared t hs]
      exact Or.inr (Or.inr (Or.inr (Or.inl ⟨t, hw, hs, rfl⟩)))
    | some o =>
      have hi : invoke p.shared t =
          Except.error (Error.future_error FutureErrc.promise_already_satisfied) := by
        simp [invoke, hs]
      rw [hi]
      exact Or.inr (Or.inr (Or.inr (Or.inr ⟨t, hw, (by rw [hs]; intro h; cases h), rfl⟩)))
  · exact Or.inl rfl
  · exact Or.inl rfl

theorem workerStep_stop (p : Pool) (i : Nat) : (workerStep p i).stop = p.stop := by
  rcases workerStep_cases p i with h | ⟨-, -, -, h⟩ | ⟨t, rest, -, -, h⟩ | ⟨t, -, -, h⟩ |
    ⟨t, -, -, h⟩ <;> rw [h]

theorem workerStep_accepted (p : Pool) (i : Nat) :
    (workerStep p i).accepted = p.accepted := by
  rcases workerStep_cases p i with h | ⟨-, -, -, h⟩ | ⟨t, rest, -, -, h⟩ | ⟨t, -, -, h⟩ |
    ⟨t, -, -, h⟩ <;> rw [h]

theorem destructorStep_accepted (p : Pool) : (destructorStep p).accepted = p.accepted := by
  unfold destructorStep
  split
  · rfl
  · split <;> rfl
  · rfl

theorem destructorStep_stop (p : Pool) :
    (destructorStep p).stop = (p.stop || decide (p.dtor = Destructor.notStarted)) := by
  unfold destructorStep
  split
  · next h => simp [h]
  · next k h => split <;> simp [h]
  · next h => simp [h]

theorem destructorStep_queue (p : Pool) :
    (destructorStep p).tasks = p.tasks ∧ (destructorStep p).dequeued = p.dequeued := by
  unfold destructorStep
  split
  · exact ⟨rfl, rfl⟩
  · split <;> exact ⟨rfl, rfl⟩
  · exact ⟨rfl, rfl⟩

theorem enqueue_step_stop (p : Pool) (f : Callable) :
    (step p (Event.enqueue f)).stop = p.stop := by
  show (match enqueue p f with
    | Except.ok (_, q) => q
    | Except.error _ => p).stop = p.stop
  cases hs : p.stop with
  | true => rw [enqueue_stopped p f hs]; exact hs
  | false => rw [enqueue_accepting p f hs]; exact hs

theorem step_stop_mono (p : Pool) (e : Event) (hs : p.stop = true) :
    (step p e).stop = true := by
  cases e with
  | enqueue f => rw [enqueue_step_stop, hs]
  | worker i => show (workerStep p i).stop = true; rw [workerStep_stop, hs]
  | destructor => show (destructorStep p).stop = true; rw [destructorStep_stop, hs]; rfl

theorem run_stop_mono (evs : List Event) (p : Pool) (hs : p.stop = true) :
    (run p evs).stop = true := by
  induction evs generalizing p with
  | nil => exact hs
  | cons e es ih => exact ih (step p e) (step_stop_mono p e hs)

theorem run_append (p : Pool) (evs₁ evs₂ : List Event) :
    run p (evs₁ ++ evs₂) = run (run p evs₁) evs₂ :=
  List.foldl_append _ _ _ _

theorem step_workers_length (p : Pool) (e : Event) :
    (step p e).workers.length = p.workers.length := by
  cases e with
  | enqueue f =>
    show (match enqueue p f with
      | Except.ok (_, q) => q
      | Except.error _ => p).workers.length = p.workers.length
    cases hs : p.stop with
    | true => rw [enqueue_stopped p f hs]
    | false => rw [enqueue_accepting p f hs]
  | worker i =>
    show (workerStep p i).workers.length = p.workers.length
    rcases workerStep_cases p i with h | ⟨-, -, -, h⟩ | ⟨t, rest, -, -, h⟩ | ⟨t, -, -, h⟩ |
      ⟨t, -, -, h⟩ <;> rw [h] <;> simp
  | destructor =>
    show (destructorStep p).workers.length = p.workers.length
    unfold destructorStep
    split
    · rfl
    · split <;> rfl
    · rfl

theorem run_workers_length (evs : List Event) (p : Pool) :
    (run p evs).workers.length = p.workers.length := by
  induction evs generalizing p with
  | nil => rfl
  | cons e es ih => exact (ih (step p e)).trans (step_workers_length p e)

/-! ## Handles and accepted tasks -/

theorem step_enqueue_stopped (p : Pool) (f : Callable) (hs : p.stop = true) :
    step p (Event.enqueue f) = p := by
  show (match enqueue p f with
    | Except.ok (_, q) => q
    | Except.error _ => p) = p
  rw [enqueue_stopped p f hs]

theorem step_enqueue_accepting (p : Pool) (f : Callable) (hs : p.stop = false) :
    step p (Event.enqueue f) =
      { p with
        tasks := p.tasks ++ [{ id := p.nextId, fn := f }]
        shared := Function.update p.shared p.nextId none
        nextId := p.nextId + 1
        accepted := p.accepted ++ [{ id := p.nextId, fn := f }] } := by
  show (match enqueue p f with
    | Except.ok (_, q) => q
    | Except.error _ => p) = _
  rw [enqueue_accepting p f hs]

theorem handles_enqueue_stopped (p : Pool) (f : Callable) (evs : List Event)
    (hs : p.stop = true) : handles p (Event.enqueue f :: evs) = handles p evs := by
  show (match enqueue p f with
    | Except.ok (h, q) => (h, f) :: handles q evs
    | Except.error _ => handles p evs) = _
  rw [enqueue_stopped p f hs]

theorem handles_enqueue_accepting (p : Pool) (f : Callable) (evs : List Event)
    (hs : p.stop = false) :
    handles p (Event.enqueue f :: evs) =
      (({ state := p.nextId, valid := true } : Future), f) ::
        handles (step p (Event.enqueue f)) evs := by
  rw [step_enqueue_accepting p f hs]
  show (match enqueue p f with
    | Except.ok (h, q) => (h, f) :: handles q evs
    | Except.error _ => handles p evs) = _
  rw [enqueue_accepting p f hs]

/-- The accepted tasks are the tasks of the handles that `enqueue` returned. -/
theorem accepted_run (evs : List Event) (p : Pool) :
    (run p evs).accepted = p.accepted ++ (handles p evs).map taskOf := by
  induction evs generalizing p with
  | nil => simp [run, handles]
  | cons e es ih =>
    show (run (step p e) es).accepted = _
    rw [ih]
    cases e with
    | enqueue f =>
      cases hs : p.stop with
      | true => rw [handles_enqueue_stopped p f es hs, step_enqueue_stopped p f hs]
      | false =>
        rw [handles_enqueue_accepting p f es hs, step_enqueue_accepting p f hs]
        simp [taskOf]
    | worker i =>
      show (workerStep p i).accepted ++ (handles (workerStep p i) es).map taskOf = _
      rw [workerStep_accepted]
      rfl
    | destructor =>
      show (destructorStep p).accepted ++ (handles (destructorStep p) es).map taskOf = _
      rw [destructorStep_accepted]
      rfl

theorem handles_valid (evs : List Event) (p : Pool) :
    ∀ hf ∈ handles p evs, hf.1.valid = true := by
  induction evs generalizing p with
  | nil => intro hf h; cases h
  | cons e es ih =>
    cases e with
    | enqueue f =>
      cases hs : p.stop with
      | true => rw [handles_enqueue_stopped p f es hs]; exact ih p
      | false =>
        rw [handles_enqueue_accepting p f es hs]
        intro hf h
        rcases List.mem_cons.mp h with h | h
        · rw [h]
        · exact ih _ hf h
    | worker i => exact ih (workerStep p i)
    | destructor => exact ih (destructorStep p)

/-- In a run from the constructor, the `i`-th handle is valid, refers to
shared state `i`, and its task is the `i`-th accepted task. -/
theorem handle_task {n : Nat} {p0 : Pool} (hc : ThreadPool n = Except.ok p0)
    (evs : List Event) {i : Nat} {h : Future} {f : Callable}
    (hi : (handles p0 evs)[i]? = some (h, f)) :
    h.state = i ∧ h.valid = true ∧ (run p0 evs).accepted[i]? = some (taskOf (h, f)) := by
  have hinv := inv_run evs p0 (inv_constructor hc)
  have hacc : (run p0 evs).accepted = (handles p0 evs).map taskOf := by
    have h0 : p0.accepted = [] := by
      unfold ThreadPool at hc
      injection hc with hc
      subst hc
      rfl
    rw [accepted_run, h0, List.nil_append]
  have hget : (run p0 evs).accepted[i]? = some (taskOf (h, f)) := by
    rw [hacc, List.getElem?_map, hi]
    rfl
  refine ⟨?_, handles_valid evs p0 (h, f) (List.getElem?_mem hi), hget⟩
  have hid : ((run p0 evs).accepted.map Task.id)[i]? = some h.state := by
    rw [List.getElem?_map, hget]
    rfl
  rw [hinv.ids] at hid
  have hlt : i < (run p0 evs).nextId := by
    by_contra hge
    rw [List.getElem?_eq_none (by rw [List.length_range]; omega)] at hid
    cases hid
  rw [List.getElem?_range hlt] at hid
  injection hid with hid
  exact hid.symm

/-- Two accepted tasks with the same identity are the same task. -/
theorem Inv.sameTask {p : Pool} (hp : Inv p) {t u : Task} (ht : t ∈ p.accepted)
    (hu : u ∈ p.accepted) (hid : t.id = u.id) : t = u :=
  List.inj_on_of_nodup_map hp.nodupAccepted ht hu hid

/-- The shared state of an accepted task, once ready, holds the outcome of
its callable. -/
theorem Inv.outcome {p : Pool} (hp : Inv p) {t : Task} (ht : t ∈ p.accepted)
    {o : Outcome} (ho : p.shared t.id = some o) : o = t.fn () := by
  obtain ⟨e, he, hid⟩ := hp.ready t.id o ho
  have heq : e.2 = t := hp.sameTask (hp.executedAccepted e he) ht hid
  have hst := hp.stored e he
  rw [heq, ho] at hst
  injection hst

/-! ## Exactly-once execution -/

theorem filter_unique {α : Type} (g : α → Nat) (l : List α) (x : α) (hx : x ∈ l)
    (hn : (l.map g).Nodup) : l.filter (fun e => decide (g e = g x)) = [x] := by
  induction l with
  | nil => cases hx
  | cons a tl ih =>
    rw [List.map_cons, List.nodup_cons] at hn
    rcases List.mem_cons.mp hx with h | h
    · subst h
      have hnil : tl.filter (fun e => decide (g e = g x)) = [] := by
        rw [List.filter_eq_nil_iff]
        intro b hb hgb
        exact hn.1 (List.mem_map.mpr ⟨b, hb, of_decide_eq_true hgb⟩)
      rw [List.filter_cons, hnil]
      simp
    · have hne : g a ≠ g x := by
        intro hga
        exact hn.1 (List.mem_map.mpr ⟨x, h, hga.symm⟩)
      rw [List.filter_cons, ih h hn.2]
      simp [hne]

theorem running_all_exited (ws : List Worker) (h : ∀ w ∈ ws, w = Worker.exited) :
    running ws = [] := by
  induction ws with
  | nil => rfl
  | cons a tl ih =>
    rw [running_cons, ih (fun w hw => h w (List.mem_cons_of_mem _ hw)),
      h a (List.mem_cons_self _ _), running_exited]
    rfl

/-- In a state where the destructor has returned and the pool has a worker,
the queue is empty and the execution log holds each accepted task once. -/
theorem Inv.drained {p : Pool} (hp : Inv p) (hpos : 0 < p.workers.length)
    (hd : p.dtor = Destructor.done) :
    p.tasks = [] ∧ (p.executed.map Prod.snd).Perm p.accepted := by
  have hall := hp.finished hd
  have hex : Worker.exited ∈ p.workers := by
    obtain ⟨w, hw⟩ := List.exists_mem_of_length_pos hpos
    have := hall w hw
    rw [this] at hw
    exact hw
  have ht := (hp.exitedEmpty hex).2
  refine ⟨ht, ?_⟩
  have hperm := hp.perm
  rw [running_all_exited p.workers hall, List.append_nil] at hperm
  have hf := hp.fifo
  rw [ht, List.append_nil] at hf
  rw [← hf]
  exact hperm

theorem Inv.once {p : Pool} (hp : Inv p) (e : Nat × Task) (he : e ∈ p.executed) :
    p.executed.filter (fun x => decide (x.2.id = e.2.id)) = [e] := by
  apply filter_unique (fun x : Nat × Task => x.2.id) p.executed e he
  have hn := hp.nodupActive
  rw [List.map_append] at hn
  have h1 := (List.nodup_append.mp hn).1
  rw [List.map_map] at h1
  exact h1

theorem constructor_accepted {n : Nat} {p0 : Pool} (hc : ThreadPool n = Except.ok p0) :
    p0.accepted = [] ∧ p0.stop = false ∧ p0.tasks = [] := by
  unfold ThreadPool at hc
  injection hc with hc
  subst hc
  exact ⟨rfl, rfl, rfl⟩

theorem workerStep_running {p : Pool} {i : Nat} {t : Task}
    (hw : p.workers[i]? = some (Worker.running t)) (hs : p.shared t.id = none) :
    workerStep p i =
      { p with
        workers := p.workers.set i Worker.idle
        shared := Function.update p.shared t.id (some (t.fn ()))
        executed := p.executed ++ [(i, t)] } := by
  unfold workerStep
  rw [hw]
  simp only [invoke_fresh p.shared t hs]

theorem flips_eq (evs : List Event) (p : Pool) :
    flips p evs = if ((run p evs).stop && !p.stop) = true then 1 else 0 := by
  induction evs generalizing p with
  | nil => simp [flips, run]
  | cons e es ih =>
    show (if (step p e).stop = p.stop then 0 else 1) + flips (step p e) es =
      if ((run (step p e) es).stop && !p.stop) = true then 1 else 0
    rw [ih]
    cases h1 : p.stop with
    | true =>
      have h2 := step_stop_mono p e h1
      simp [h2]
    | false =>
      cases h2 : (step p e).stop with
      | true =>
        have h3 := run_stop_mono es (step p e) h2
        simp [h3]
      | false => simp

/-- With no worker the destructor returns while an accepted task is still
queued: the drain needs at least one worker. -/
theorem zero_workers_leave_queue :
    (run (newPool []) [Event.enqueue (square 1), Event.destructor, Event.destructor]).dtor =
      Destructor.done ∧
    (run (newPool []) [Event.enqueue (square 1), Event.destructor,
      Event.destructor]).tasks.map Task.id = [0] :=
  ⟨rfl, rfl⟩

/-! ## The claims -/

/-- C1: drain on shutdown.  For a pool built with `n ≥ 1` workers and any
interleaving of `enqueue` calls, worker steps and destructor steps, in every
reachable state in which the destructor has returned: `stop` is set, all `n`
workers have exited, the queue is empty, the accepted tasks are exactly the
tasks of the handles that `enqueue` returned, every accepted task occurs
exactly once in the log of executed calls, made by one worker of the pool,
and nothing else was executed. -/
theorem drain_on_shutdown (n : Nat) (p0 : Pool) (evs : List Event) (hn : 1 ≤ n)
    (hc : ThreadPool n = Except.ok p0) (hd : (run p0 evs).dtor = Destructor.done) :
    (run p0 evs).stop = true ∧
    (run p0 evs).workers.length = n ∧
    (∀ w ∈ (run p0 evs).workers, w = Worker.exited) ∧
    (run p0 evs).tasks = [] ∧
    (run p0 evs).accepted = (handles p0 evs).map taskOf ∧
    (∀ t ∈ (run p0 evs).accepted, ∃ w, w < n ∧
      (run p0 evs).executed.filter (fun e => decide (e.2.id = t.id)) = [(w, t)]) ∧
    (∀ e ∈ (run p0 evs).executed, e.2 ∈ (run p0 evs).accepted) := by
  have hinv := inv_run evs p0 (inv_constructor hc)
  have hlen : (run p0 evs).workers.length = n := by
    rw [run_workers_length, constructor_workers hc, List.length_replicate]
  have hdr := hinv.drained (by omega) hd
  refine ⟨hinv.started.mpr (by rw [hd]; intro h; cases h), hlen, hinv.finished hd, hdr.1,
    ?_, ?_, hinv.executedAccepted⟩
  · rw [accepted_run, (constructor_accepted hc).1, List.nil_append]
  · intro t ht
    have hmem : t ∈ (run p0 evs).executed.map Prod.snd := hdr.2.mem_iff.mpr ht
    obtain ⟨e, he, het⟩ := List.mem_map.mp hmem
    refine ⟨e.1, hlen ▸ hinv.owner e he, ?_⟩
    have honce := hinv.once e he
    rw [het] at honce
    rw [honce, ← het]

/-- C1 witness: two workers, three tasks (one of them throwing, one accepted
while the others run); at the end the destructor has returned, the queue is
empty and the log holds each task once. -/
theorem drain_on_shutdown_witness :
    (run (newPool [Worker.idle, Worker.idle]) drainTrace).dtor = Destructor.done ∧
    (run (newPool [Worker.idle, Worker.idle]) drainTrace).tasks = [] ∧
    (run (newPool [Worker.idle, Worker.idle]) drainTrace).executed.map
      (fun e => (e.1, e.2.id)) = [(1, 1), (0, 0), (1, 2)] ∧
    (∀ t ∈ (run (newPool [Worker.idle, Worker.idle]) drainTrace).accepted, ∃ w, w < 2 ∧
      (run (newPool [Worker.idle, Worker.idle]) drainTrace).executed.filter
        (fun e => decide (e.2.id = t.id)) = [(w, t)]) :=
  ⟨rfl,
    (drain_on_shutdown 2 (newPool [Worker.idle, Worker.idle]) drainTrace (by decide) rfl
      rfl).2.2.2.1,
    rfl,
    (drain_on_shutdown 2 (newPool [Worker.idle, Worker.idle]) drainTrace (by decide) rfl
      rfl).2.2.2.2.2.1⟩

/-- C2: on a pool whose `stop` flag is set, `enqueue` of any callable throws
the runtime error "enqueue on stopped ThreadPool" and the pool state is left
exactly as it was (queue, flag, workers and all the rest); the run continues
as if the call had not been made and no handle is returned, so the task is
never queued and never executed. -/
theorem enqueue_on_stopped (p : Pool) (f : Callable) (hs : p.stop = true) :
    enqueue p f = Except.error (Error.runtime_error "enqueue on stopped ThreadPool") ∧
    step p (Event.enqueue f) = p ∧
    (∀ evs, run p (Event.enqueue f :: evs) = run p evs) ∧
    (∀ evs, handles p (Event.enqueue f :: evs) = handles p evs) := by
  refine ⟨enqueue_stopped p f hs, step_enqueue_stopped p f hs, ?_, ?_⟩
  · intro evs
    show run (step p (Event.enqueue f)) evs = run p evs
    rw [step_enqueue_stopped p f hs]
  · intro evs
    exact handles_enqueue_stopped p f evs hs

/-- C2 witness: after the first destructor step of a one-worker pool,
`enqueue` throws and the pool is unchanged. -/
theorem enqueue_on_stopped_witness :
    (run (newPool [Worker.idle]) [Event.destructor]).stop = true ∧
    enqueue (run (newPool [Worker.idle]) [Event.destructor]) (square 7) =
      Except.error (Error.runtime_error "enqueue on stopped ThreadPool") ∧
    step (run (newPool [Worker.idle]) [Event.destructor]) (Event.enqueue (square 7)) =
      run (newPool [Worker.idle]) [Event.destructor] :=
  ⟨rfl,
    (enqueue_on_stopped (run (newPool [Worker.idle]) [Event.destructor]) (square 7) rfl).1,
    (enqueue_on_stopped (run (newPool [Worker.idle]) [Event.destructor]) (square 7) rfl).2.1⟩

/-- C3: FIFO dequeue.  In every state reachable from the constructor, the
accepted tasks are the tasks of the handles in the order `enqueue` returned
them, and the tasks removed by the workers so far, in the order of removal,
followed by the tasks still queued, are exactly that sequence.  Every step
either removes nothing or removes the head of the queue, the oldest task
still queued. -/
theorem fifo_dequeue (n : Nat) (p0 : Pool) (evs : List Event)
    (hc : ThreadPool n = Except.ok p0) :
    (run p0 evs).accepted = (handles p0 evs).map taskOf ∧
    (run p0 evs).dequeued ++ (run p0 evs).tasks = (run p0 evs).accepted ∧
    ((run p0 evs).tasks = [] → (run p0 evs).dequeued = (run p0 evs).accepted) ∧
    (∀ e, (step (run p0 evs) e).dequeued = (run p0 evs).dequeued ∨
      ∃ t rest, (run p0 evs).tasks = t :: rest ∧
        (step (run p0 evs) e).dequeued = (run p0 evs).dequeued ++ [t] ∧
        (step (run p0 evs) e).tasks = rest) := by
  have hinv := inv_run evs p0 (inv_constructor hc)
  refine ⟨?_, hinv.fifo, ?_, ?_⟩
  · rw [accepted_run, (constructor_accepted hc).1, List.nil_append]
  · intro ht
    have hf := hinv.fifo
    rw [ht, List.append_nil] at hf
    exact hf
  · intro e
    cases e with
    | enqueue f =>
      left
      cases hs : (run p0 evs).stop with
      | true => rw [step_enqueue_stopped _ f hs]
      | false => rw [step_enqueue_accepting _ f hs]
    | worker i =>
      show (workerStep (run p0 evs) i).dequeued = _ ∨ _
      rcases workerStep_cases (run p0 evs) i with h | ⟨-, -, -, h⟩ | ⟨t, rest, -, ht, h⟩ |
        ⟨t, -, -, h⟩ | ⟨t, -, -, h⟩
      · left; rw [h]
      · left; rw [h]
      · right
        refine ⟨t, rest, ht, ?_, ?_⟩
        · show (workerStep (run p0 evs) i).dequeued = _
          rw [h]
        · show (workerStep (run p0 evs) i).tasks = _
          rw [h]
      · left; rw [h]
      · left; rw [h]
    | destructor =>
      left
      exact (destructorStep_queue (run p0 evs)).2

/-- C3 witness: in the two-worker run the three tasks were accepted as
0, 1, 2 and dequeued as 0, 1, 2. -/
theorem fifo_dequeue_witness :
    (run (newPool [Worker.idle, Worker.idle]) drainTrace).dequeued.map Task.id = [0, 1, 2] ∧
    (run (newPool [Worker.idle, Worker.idle]) drainTrace).accepted.map Task.id = [0, 1, 2] ∧
    (run (newPool [Worker.idle, Worker.idle]) drainTrace).dequeued ++
      (run (newPool [Worker.idle, Worker.idle]) drainTrace).tasks =
      (run (newPool [Worker.idle, Worker.idle]) drainTrace).accepted :=
  ⟨rfl, rfl, (fifo_dequeue 2 (newPool [Worker.idle, Worker.idle]) drainTrace rfl).2.1⟩

/-- C4: result binding is independent of the schedule.  For a pool built with
`n ≥ 1` workers and any interleaving, once the destructor has returned, the
handle returned by the `i`-th successful `enqueue` refers to shared state `i`,
and for a callable `f` that returns the value `v`, `get` on that handle yields
`v`, whichever worker ran the task and in whatever order tasks completed. -/
theorem result_binding (n : Nat) (p0 : Pool) (evs : List Event) (i : Nat) (h : Future)
    (f : Callable) (v : Int) (hn : 1 ≤ n) (hc : ThreadPool n = Except.ok p0)
    (hd : (run p0 evs).dtor = Destructor.done)
    (hi : (handles p0 evs)[i]? = some (h, f)) (hv : f () = Except.ok v) :
    h.state = i ∧
    Future.get (run p0 evs).shared h =
      GetResult.ready (Except.ok v) { state := i, valid := false } := by
  have hinv := inv_run evs p0 (inv_constructor hc)
  have hlen : (run p0 evs).workers.length = n := by
    rw [run_workers_length, constructor_workers hc, List.length_replicate]
  obtain ⟨hst, hval, hacc⟩ := handle_task hc evs hi
  have hdr := hinv.drained (by omega) hd
  have hmem : taskOf (h, f) ∈ (run p0 evs).executed.map Prod.snd :=
    hdr.2.mem_iff.mpr (List.getElem?_mem hacc)
  obtain ⟨e, he, het⟩ := List.mem_map.mp hmem
  have hsto := hinv.stored e he
  rw [het] at hsto
  have hsto : (run p0 evs).shared h.state = some (f ()) := hsto
  refine ⟨hst, ?_⟩
  unfold Future.get
  rw [hval, hsto, hv, hst]
  rfl

/-- C4 witness: three workers, ten tasks returning `i * i` for `i` in 0..9;
after the destructor has returned the ten handles yield
0, 1, 4, 9, 16, 25, 36, 49, 64, 81. -/
theorem result_binding_witness :
    (run (newPool [Worker.idle, Worker.idle, Worker.idle]) squaresTrace).dtor =
      Destructor.done ∧
    Future.get (run (newPool [Worker.idle, Worker.idle, Worker.idle]) squaresTrace).shared
      { state := 7, valid := true } =
      GetResult.ready (Except.ok 49) { state := 7, valid := false } ∧
    (handles (newPool [Worker.idle, Worker.idle, Worker.idle]) squaresTrace).map
      (fun hf =>
        Future.get (run (newPool [Worker.idle, Worker.idle, Worker.idle]) squaresTrace).shared
          hf.1) =
      [GetResult.ready (Except.ok 0) { state := 0, valid := false },
       GetResult.ready (Except.ok 1) { state := 1, valid := false },
       GetResult.ready (Except.ok 4) { state := 2, valid := false },
       GetResult.ready (Except.ok 9) { state := 3, valid := false },
       GetResult.ready (Except.ok 16) { state := 4, valid := false },
       GetResult.ready (Except.ok 25) { state := 5, valid := false },
       GetResult.ready (Except.ok 36) { state := 6, valid := false },
       GetResult.ready (Except.ok 49) { state := 7, valid := false },
       GetResult.ready (Except.ok 64) { state := 8, valid := false },
       GetResult.ready (Except.ok 81) { state := 9, valid := false }] :=
  ⟨rfl,
    (result_binding 3 (newPool [Worker.idle, Worker.idle, Worker.idle]) squaresTrace 7
      { state := 7, valid := true } (square 7) 49 (by decide) rfl rfl rfl rfl).2,
    rfl⟩

/-- C5: task failure is localized.  In every state reachable from the
constructor, when worker `i` completes a task whose callable throws `err`:
worker `i` is back at the top of its loop and all other workers are as they
were, no worker has faulted, the exception is stored in the shared state of
that task and `get` on the handle that `enqueue` returned for it rethrows it,
every other shared state is unchanged, and the queue, the `stop` flag and the
destructor position (hence whether `enqueue` accepts) are unchanged. -/
theorem task_failure_localized (n : Nat) (p0 : Pool) (evs : List Event) (i : Nat)
    (t : Task) (err : Error) (hc : ThreadPool n = Except.ok p0)
    (hw : (run p0 evs).workers[i]? = some (Worker.running t))
    (hf : t.fn () = Except.error err) :
    (workerStep (run p0 evs) i).workers = (run p0 evs).workers.set i Worker.idle ∧
    (workerStep (run p0 evs) i).workers[i]? = some Worker.idle ∧
    Worker.faulted ∉ (workerStep (run p0 evs) i).workers ∧
    (workerStep (run p0 evs) i).shared t.id = some (Except.error err) ∧
    (∀ (k : Nat) (h : Future) (f : Callable), (handles p0 evs)[k]? = some (h, f) →
      h.state = t.id →
      Future.get (workerStep (run p0 evs) i).shared h =
        GetResult.ready (Except.error err) { state := t.id, valid := false }) ∧
    (∀ id, id ≠ t.id → (workerStep (run p0 evs) i).shared id = (run p0 evs).shared id) ∧
    (workerStep (run p0 evs) i).tasks = (run p0 evs).tasks ∧
    (workerStep (run p0 evs) i).stop = (run p0 evs).stop ∧
    (workerStep (run p0 evs) i).dtor = (run p0 evs).dtor ∧
    (∀ g, (enqueue (workerStep (run p0 evs) i) g).toBool = (enqueue (run p0 evs) g).toBool) := by
  have hinv := inv_run evs p0 (inv_constructor hc)
  have hinv2 := inv_workerStep (run p0 evs) i hinv
  have hstep := workerStep_running hw (hinv.fresh hw)
  have hsh : (workerStep (run p0 evs) i).shared t.id = some (Except.error err) := by
    rw [hstep, ← hf]
    exact Function.update_same _ _ _
  refine ⟨by rw [hstep], ?_, hinv2.noFault, hsh, ?_, ?_, by rw [hstep], by rw [hstep],
    by rw [hstep], ?_⟩
  · rw [hstep]
    exact List.getElem?_set_self (List.getElem?_eq_some.mp hw).1
  · intro k h f hk hid
    have hval := (handle_task hc evs hk).2.1
    unfold Future.get
    rw [hval, hid, hsh, ← hid]
    rfl
  · intro id hid
    rw [hstep]
    exact Function.update_noteq hid _ _
  · intro g
    cases hs : (run p0 evs).stop with
    | true =>
      rw [enqueue_stopped _ g hs, enqueue_stopped _ g (by rw [workerStep_stop]; exact hs)]
    | false =>
      rw [enqueue_accepting _ g hs, enqueue_accepting _ g (by rw [workerStep_stop]; exact hs)]
      rfl

/-- C5 witness: one worker has dequeued a throwing task while a second task
waits; after the call the worker is idle, the exception sits in handle 0, and
the worker goes on to run the second task. -/
theorem task_failure_localized_witness :
    (run (newPool [Worker.idle]) failureTrace).workers.map Worker.isExited = [false] ∧
    (workerStep (run (newPool [Worker.idle]) failureTrace) 0).workers[0]? =
      some Worker.idle ∧
    (workerStep (run (newPool [Worker.idle]) failureTrace) 0).shared 0 =
      some (Except.error (Error.runtime_error "task failed")) ∧
    Future.get
      (run (newPool [Worker.idle]) (failureTrace ++ [Event.worker 0, Event.worker 0,
        Event.worker 0])).shared { state := 1, valid := true } =
      GetResult.ready (Except.ok 9) { state := 1, valid := false } :=
  ⟨rfl,
    (task_failure_localized 1 (newPool [Worker.idle]) failureTrace 0
      { id := 0, fn := failing } (Error.runtime_error "task failed") rfl rfl rfl).2.1,
    (task_failure_localized 1 (newPool [Worker.idle]) failureTrace 0
      { id := 0, fn := failing } (Error.runtime_error "task failed") rfl rfl rfl).2.2.2.1,
    rfl⟩

/-- C6 counterexample: the constructor called with 0 does not fail with
`invalid_argument`; it returns a pool. -/
theorem constructor_zero_counterexample :
    ThreadPool 0 = Except.ok (newPool []) ∧
    ¬ ∃ what, ThreadPool 0 = Except.error (Error.invalid_argument what) :=
  ⟨rfl, fun ⟨_, h⟩ => by cases h⟩

/-- C6 as amended: constructing a pool with worker count 0 raises no error
and returns an accepting pool with no worker and an empty queue. -/
theorem constructor_zero :
    ∃ p, ThreadPool 0 = Except.ok p ∧ p.workers = [] ∧ p.stop = false ∧ p.tasks = [] ∧
      p.dtor = Destructor.notStarted :=
  ⟨newPool [], rfl, rfl, rfl, rfl, rfl⟩

/-- C7: for every worker count `n ≥ 1` the constructor returns a pool that
holds exactly `n` workers (so at least one), all of them live at the top of
their loop, with `stop == false` and an empty queue. -/
theorem constructor_spawns (n : Nat) (hn : 1 ≤ n) :
    ∃ p, ThreadPool n = Except.ok p ∧ p.workers.length = n ∧ p.workers ≠ [] ∧
      (∀ w ∈ p.workers, w = Worker.idle) ∧ p.stop = false ∧ p.tasks = [] := by
  cases hp : ThreadPool n with
  | error e => unfold ThreadPool at hp; cases hp
  | ok p =>
    have hw := constructor_workers hp
    have hlen : p.workers.length = n := by rw [hw, List.length_replicate]
    refine ⟨p, rfl, hlen, ?_, ?_, (constructor_accepted hp).2.1, (constructor_accepted hp).2.2⟩
    · intro hnil
      rw [hnil] at hlen
      have : 0 = n := hlen
      omega
    · intro w hm
      rw [hw] at hm
      exact List.eq_of_mem_replicate hm

/-- C7 witness: the pool of `src/main.cpp`, five workers. -/
theorem constructor_spawns_witness :
    ∃ p, ThreadPool 5 = Except.ok p ∧ p.workers.length = 5 ∧ p.workers ≠ [] ∧
      (∀ w ∈ p.workers, w = Worker.idle) ∧ p.stop = false ∧ p.tasks = [] :=
  constructor_spawns 5 (by decide)

/-- C8 counterexample: one worker runs one task returning 9.  The handle
returned by `enqueue` is valid and refers to shared state 0; the first `get`
returns 9 and leaves the handle with `valid()` false; a second `get` on that
handle is a call outside the contract of `get`, it does not return 9 again. -/
theorem get_twice_counterexample :
    ThreadPool 1 = Except.ok (newPool [Worker.idle]) ∧
    (handles (newPool [Worker.idle]) singleTrace).map Prod.fst =
      [{ state := 0, valid := true }] ∧
    Future.get (run (newPool [Worker.idle]) singleTrace).shared { state := 0, valid := true } =
      GetResult.ready (Except.ok 9) { state := 0, valid := false } ∧
    Future.get (run (newPool [Worker.idle]) singleTrace).shared { state := 0, valid := false } =
      GetResult.undefined ∧
    Future.get (run (newPool [Worker.idle]) singleTrace).shared { state := 0, valid := false } ≠
      GetResult.ready (Except.ok 9) { state := 0, valid := false } :=
  ⟨rfl, rfl, rfl, rfl, fun h => by cases h⟩

/-- C8 as amended: for every task that has completed, the first `get` on the
handle returned by `enqueue` succeeds with the outcome of the task's callable
and leaves the handle with `valid()` false; a later `get` on that handle is
outside the contract of `get` and does not return the outcome. -/
theorem get_once (n : Nat) (p0 : Pool) (evs : List Event) (i : Nat) (h : Future)
    (f : Callable) (o : Outcome) (hc : ThreadPool n = Except.ok p0)
    (hi : (handles p0 evs)[i]? = some (h, f))
    (ho : (run p0 evs).shared h.state = some o) :
    o = f () ∧
    (∃ after, Future.get (run p0 evs).shared h = GetResult.ready o after ∧
      after.state = h.state ∧ after.valid = false ∧
      Future.get (run p0 evs).shared after = GetResult.undefined ∧
      ∀ o2 h2, Future.get (run p0 evs).shared after ≠ GetResult.ready o2 h2) := by
  have hinv := inv_run evs p0 (inv_constructor hc)
  obtain ⟨-, hval, hacc⟩ := handle_task hc evs hi
  refine ⟨hinv.outcome (t := taskOf (h, f)) (List.getElem?_mem hacc) ho,
    { h with valid := false }, ?_, rfl, rfl, rfl, ?_⟩
  · unfold Future.get
    rw [hval, ho]
    rfl
  · intro o2 h2 hget
    have hu : Future.get (run p0 evs).shared { h with valid := false } =
        GetResult.undefined := rfl
    rw [hu] at hget
    cases hget

/-- C8 witness: the handle of the completed task of the one-worker run; the
first `get` returns 9 and leaves the handle with `valid()` false. -/
theorem get_once_witness :
    ∃ after,
      Future.get (run (newPool [Worker.idle]) singleTrace).shared
        { state := 0, valid := true } = GetResult.ready (Except.ok 9) after ∧
      after.state = 0 ∧ after.valid = false ∧
      Future.get (run (newPool [Worker.idle]) singleTrace).shared after =
        GetResult.undefined ∧
      ∀ o2 h2, Future.get (run (newPool [Worker.idle]) singleTrace).shared after ≠
        GetResult.ready o2 h2 :=
  (get_once 1 (newPool [Worker.idle]) singleTrace 0 { state := 0, valid := true } (square 3)
    (Except.ok 9) rfl rfl rfl).2

/-- C9: the `stop` flag changes once, from false to true.  It is false when
the constructor returns; in every reachable state an `enqueue` (accepted or
throwing) and a step of any worker leave it unchanged, the destructor sets it
when it is still false, and once true it stays true whatever happens next;
along any interleaving the number of steps that change it is 1 if the flag is
set at the end and 0 otherwise. -/
theorem stop_flips_once (n : Nat) (p0 : Pool) (evs : List Event)
    (hc : ThreadPool n = Except.ok p0) :
    p0.stop = false ∧
    (∀ f, (step (run p0 evs) (Event.enqueue f)).stop = (run p0 evs).stop) ∧
    (∀ i, (step (run p0 evs) (Event.worker i)).stop = (run p0 evs).stop) ∧
    ((run p0 evs).stop = false → (step (run p0 evs) Event.destructor).stop = true) ∧
    (∀ more, (run p0 evs).stop = true → (run p0 (evs ++ more)).stop = true) ∧
    flips p0 evs = (if (run p0 evs).stop = true then 1 else 0) := by
  have hinv := inv_run evs p0 (inv_constructor hc)
  have h0 := (constructor_accepted hc).2.1
  refine ⟨h0, fun f => enqueue_step_stop _ f, fun i => workerStep_stop _ i, ?_, ?_, ?_⟩
  · intro hs
    show (destructorStep (run p0 evs)).stop = true
    rw [destructorStep_stop, hs]
    have hd : (run p0 evs).dtor = Destructor.notStarted := by
      by_contra hne
      have := hinv.started.mpr hne
      rw [hs] at this
      cases this
    simp [hd]
  · intro more hs
    rw [run_append]
    exact run_stop_mono more _ hs
  · rw [flips_eq, h0]
    simp

/-- C9 witness: in the two-worker run the flag is set at the end and exactly
one step changed it. -/
theorem stop_flips_once_witness :
    (run (newPool [Worker.idle, Worker.idle]) drainTrace).stop = true ∧
    flips (newPool [Worker.idle, Worker.idle]) drainTrace = 1 :=
  ⟨rfl, (stop_flips_once 2 (newPool [Worker.idle, Worker.idle]) drainTrace rfl).2.2.2.2.2⟩

/-- C10: a worker never dequeues from an empty queue.  The critical section
never reaches `front()` with an empty queue, whatever the flag and the queue;
in every state reachable from the constructor no worker has faulted, before
or after a step of worker `i`; an idle worker that leaves the critical
section with a task took the head of a non-empty queue; a worker that takes
the exit branch does so with `stop` set and the queue empty; and no worker has
exited while a task is queued. -/
theorem worker_never_pops_empty (n : Nat) (p0 : Pool) (evs : List Event) (i : Nat)
    (hc : ThreadPool n = Except.ok p0) :
    (∀ stop tasks, critical stop tasks ≠ Critical.frontOnEmpty) ∧
    (∀ stop tasks, critical stop tasks = Critical.exit ↔ (stop = true ∧ tasks = [])) ∧
    Worker.faulted ∉ (run p0 evs).workers ∧
    Worker.faulted ∉ (workerStep (run p0 evs) i).workers ∧
    (∀ t, (run p0 evs).workers[i]? = some Worker.idle →
      (workerStep (run p0 evs) i).workers[i]? = some (Worker.running t) →
      ∃ rest, (run p0 evs).tasks = t :: rest ∧ (workerStep (run p0 evs) i).tasks = rest) ∧
    ((run p0 evs).workers[i]? = some Worker.idle →
      (workerStep (run p0 evs) i).workers[i]? = some Worker.exited →
      (run p0 evs).stop = true ∧ (run p0 evs).tasks = []) ∧
    (Worker.exited ∈ (run p0 evs).workers → (run p0 evs).tasks = []) := by
  have hinv := inv_run evs p0 (inv_constructor hc)
  have hinv2 := inv_workerStep (run p0 evs) i hinv
  refine ⟨?_, ?_, hinv.noFault, hinv2.noFault, ?_, ?_, fun h => (hinv.exitedEmpty h).2⟩
  · intro stop tasks
    cases stop <;> cases tasks <;> simp [critical]
  · intro stop tasks
    cases stop <;> cases tasks <;> simp [critical]
  · intro t hw hq
    have hlt := (List.getElem?_eq_some.mp hw).1
    rcases workerStep_cases (run p0 evs) i with h | ⟨-, -, -, h⟩ | ⟨u, rest, -, ht, h⟩ |
      ⟨u, hu, -, -⟩ | ⟨u, hu, -, -⟩
    · rw [h, hw] at hq; cases hq
    · rw [h] at hq
      have hq : ((run p0 evs).workers.set i Worker.exited)[i]? = _ := hq
      rw [List.getElem?_set_self hlt] at hq
      cases hq
    · have hq2 := hq
      rw [h] at hq2
      have hq2 : ((run p0 evs).workers.set i (Worker.running u))[i]? = _ := hq2
      rw [List.getElem?_set_self hlt] at hq2
      injection hq2 with hq2
      injection hq2 with hq2
      subst hq2
      exact ⟨rest, ht, by rw [h]⟩
    · rw [hw] at hu; cases hu
    · rw [hw] at hu; cases hu
  · intro hw hq
    have hlt := (List.getElem?_eq_some.mp hw).1
    rcases workerStep_cases (run p0 evs) i with h | ⟨-, hs, ht, -⟩ | ⟨u, rest, -, -, h⟩ |
      ⟨u, hu, -, -⟩ | ⟨u, hu, -, -⟩
    · rw [h, hw] at hq; cases hq
    · exact ⟨hs, ht⟩
    · rw [h] at hq
      have hq : ((run p0 evs).workers.set i (Worker.running u))[i]? = _ := hq
      rw [List.getElem?_set_self hlt] at hq
      cases hq
    · rw [hw] at hu; cases hu
    · rw [hw] at hu; cases hu

/-- C10 witness: in the two-worker run, after the destructor has set `stop`
with task 2 still queued, worker 1 takes task 2 (it does not exit), and worker
0 exits only on the empty queue. -/
theorem worker_never_pops_empty_witness :
    (run (newPool [Worker.idle, Worker.idle]) (drainTrace.take 8)).stop = true ∧
    (run (newPool [Worker.idle, Worker.idle]) (drainTrace.take 8)).tasks.map Task.id = [2] ∧
    (workerStep (run (newPool [Worker.idle, Worker.idle]) (drainTrace.take 8)) 1).workers.map
      Worker.isExited = [false, false] ∧
    Worker.faulted ∉
      (workerStep (run (newPool [Worker.idle, Worker.idle]) (drainTrace.take 8)) 1).workers :=
  ⟨rfl, rfl, rfl,
    (worker_never_pops_empty 2 (newPool [Worker.idle, Worker.idle]) (drainTrace.take 8) 1
      rfl).2.2.2.1⟩

end ThreadPool
